import Mathlib

/-!
Verification of the starlark-rust runtime nucleus against its specification.

The Lean definitions below shallowly embed the Rust sources:
* `src/starlark/src/values/layout/pointer.rs` — pointer tagging of `Value`;
* `src/starlark/src/eval/bc/frame.rs` — call-frame scoping (`alloca_frame`);
* `src/starlark/src/collections/small_map.rs` — the `SmallMap` container;
* `src/starlark/src/eval/runtime/arguments.rs` — parameter binding.

`usize` words are modelled as natural numbers (reduced mod `2^64` where overflow
matters), `i32`/`isize` as integers with explicit two's-complement conversions,
and fallible operations return `Except`/`Option`.
-/

set_option linter.unusedVariables false
set_option linter.unusedSectionVars false

namespace Starlark

/-! ### Pointer tagging (src/starlark/src/values/layout/pointer.rs) -/

def TAG_BITS : Nat := 7

def TAG_INT : Nat := 2

def TAG_STR : Nat := 4

def TAG_UNFROZEN : Nat := 1

/-- `tag_int`: `((x as u32 as usize) << 3) | TAG_INT`.  The `i32` payload is first
reinterpreted as `u32` (two's complement, i.e. `i % 2^32`). -/
def tag_int (i : Int) : Nat := ((i % 2 ^ 32).toNat <<< 3) ||| TAG_INT

/-- Reinterpret a 64-bit `usize` as `isize` (two's complement). -/
def asIsize (x : Nat) : Int := if x < 2 ^ 63 then (x : Int) else (x : Int) - 2 ^ 64

/-- Truncate an `isize` to `i32` (two's complement). -/
def asI32 (s : Int) : Int :=
  if s % 2 ^ 32 < 2 ^ 31 then s % 2 ^ 32 else s % 2 ^ 32 - 2 ^ 32

/-- `untag_int`: `((x as isize) >> 3) as i32` — arithmetic right shift by three
(floor division by 8) then truncation to `i32`. -/
def untag_int (x : Nat) : Int := asI32 ((asIsize x).fdiv 8)

/-- `Pointer::is_str`: `(ptr & TAG_STR) != 0`. -/
def is_str (x : Nat) : Bool := (x &&& TAG_STR) != 0

/-- `Pointer::is_unfrozen`: `(ptr & TAG_UNFROZEN) != 0`. -/
def is_unfrozen (x : Nat) : Bool := (x &&& TAG_UNFROZEN) != 0

/-- `untag_pointer`: clear the three tag bits (`x & !TAG_BITS` on a 64-bit word). -/
def untag_pointer (x : Nat) : Nat := x &&& (2 ^ 64 - 8)

/-- `Pointer::unpack`: `inl` a pointer word, `inr` an inline 32-bit integer,
discriminated by the `INT` bit. -/
def unpack (x : Nat) : Sum Nat Int :=
  if x &&& TAG_INT = 0 then Sum.inl (untag_pointer x) else Sum.inr (untag_int x)

theorem tag_int_eq (i : Int) : tag_int i = 8 * (i % 2 ^ 32).toNat + 2 := by
  have h := Nat.mul_add_lt_is_or (i := 3) (b := 2) (by norm_num) ((i % 2 ^ 32).toNat)
  unfold tag_int TAG_INT
  rw [Nat.shiftLeft_eq, Nat.mul_comm]
  show 2 ^ 3 * (i % 2 ^ 32).toNat ||| 2 = _
  rw [← h]

theorem tag_int_testBit_one (i : Int) : (tag_int i).testBit 1 = true := by
  rw [tag_int_eq, Nat.testBit_to_div_mod]
  simp only [decide_eq_true_eq]
  omega

theorem tag_int_testBit_zero (i : Int) : (tag_int i).testBit 0 = false := by
  rw [tag_int_eq, Nat.testBit_to_div_mod]
  simp only [decide_eq_false_iff_not]
  omega

theorem tag_int_testBit_two (i : Int) : (tag_int i).testBit 2 = false := by
  rw [tag_int_eq, Nat.testBit_to_div_mod]
  simp only [decide_eq_false_iff_not]
  omega

theorem tag_int_and_int (i : Int) : tag_int i &&& TAG_INT = 2 := by
  show tag_int i &&& 2 ^ 1 = 2
  rw [Nat.and_comm, Nat.two_pow_and, tag_int_testBit_one]
  rfl

theorem tag_int_and_str (i : Int) : tag_int i &&& TAG_STR = 0 := by
  show tag_int i &&& 2 ^ 2 = 0
  rw [Nat.and_comm, Nat.two_pow_and, tag_int_testBit_two]
  rfl

theorem tag_int_and_unfrozen (i : Int) : tag_int i &&& TAG_UNFROZEN = 0 := by
  show tag_int i &&& 2 ^ 0 = 0
  rw [Nat.and_comm, Nat.two_pow_and, tag_int_testBit_zero]
  rfl

theorem untag_tag_int (i : Int) (hlo : -2 ^ 31 ≤ i) (hhi : i < 2 ^ 31) :
    untag_int (tag_int i) = i := by
  have h0 : (0 : Int) ≤ i % 2 ^ 32 := Int.emod_nonneg i (by norm_num)
  have h1 : i % 2 ^ 32 < 2 ^ 32 := Int.emod_lt_of_pos i (by norm_num)
  have hu : ((i % 2 ^ 32).toNat : Int) = i % 2 ^ 32 := Int.toNat_of_nonneg h0
  have hun : (i % 2 ^ 32).toNat < 2 ^ 32 := by omega
  rw [tag_int_eq]
  have hA : asIsize (8 * (i % 2 ^ 32).toNat + 2) = ((8 * (i % 2 ^ 32).toNat + 2 : Nat) : Int) := by
    unfold asIsize
    split
    · rfl
    · omega
  unfold untag_int
  rw [hA, Int.fdiv_eq_ediv _ (by norm_num)]
  unfold asI32
  split <;> push_cast <;> omega

/-- C7: for every `i` in the `i32` range, the int-tagged `Value` built from `i`
unpacks back to exactly `i` (arithmetic right shift by three preserving sign),
and such a value reports `is_string() == false` and `is_unfrozen() == false`. -/
theorem value_int_roundtrip (i : Int) (hlo : -2 ^ 31 ≤ i) (hhi : i < 2 ^ 31) :
    untag_int (tag_int i) = i ∧
    unpack (tag_int i) = Sum.inr i ∧
    is_str (tag_int i) = false ∧
    is_unfrozen (tag_int i) = false := by
  refine ⟨untag_tag_int i hlo hhi, ?_, ?_, ?_⟩
  · unfold unpack
    rw [if_neg (by rw [tag_int_and_int]; omega)]
    rw [untag_tag_int i hlo hhi]
  · unfold is_str
    rw [tag_int_and_str]
    rfl
  · unfold is_unfrozen
    rw [tag_int_and_unfrozen]
    rfl

/-- C7 witness: `from_int(-1)` unpacks to `Right(-1)`, is not a string and not
unfrozen. -/
theorem value_int_roundtrip_witness :
    untag_int (tag_int (-1)) = -1 ∧
    unpack (tag_int (-1)) = Sum.inr (-1) ∧
    is_str (tag_int (-1)) = false ∧
    is_unfrozen (tag_int (-1)) = false :=
  value_int_roundtrip (-1) (by norm_num) (by norm_num)

/-! ### Call-frame scoping (src/starlark/src/eval/bc/frame.rs) -/

/-- Modelled from the spec: the slice of `Evaluator` state that `alloca_frame`
touches — the current frame pointer (`BcFramePtr`, modelled as a word) and the
alloca bump allocator (modelled as a counter handing out fresh frame words).
The `Evaluator` struct and `alloca_uninit` are not among the sources; only
their interface is used by `frame.rs`. -/
structure EvalState where
  current_frame : Nat
  alloca_next : Nat

/-- `alloca_raw`: bump-allocate a fresh frame and hand it to the continuation. -/
def alloca_raw {R : Type} (st : EvalState) (k : Nat → EvalState → R × EvalState) :
    R × EvalState :=
  k st.alloca_next { st with alloca_next := st.alloca_next + 1 }

/-- `alloca_frame`: install the freshly allocated frame as `current_frame`,
run the continuation, then restore the previous frame pointer
(`let old_frame = mem::replace(&mut eval.current_frame, frame); let r = k(eval);
eval.current_frame = old_frame; r`). -/
def alloca_frame (st : EvalState) {R : Type} (k : EvalState → R × EvalState) :
    R × EvalState :=
  alloca_raw st fun frame st1 =>
    let old_frame := st1.current_frame
    let r := k { st1 with current_frame := frame }
    (r.1, { r.2 with current_frame := old_frame })

/-- C9: after `alloca_frame` returns, the evaluator's current frame pointer
equals the value it had before the call, whether the continuation returned
success (`Except.ok`) or an error (`Except.error`). -/
theorem alloca_frame_restores {E A : Type} (st : EvalState)
    (k : EvalState → Except E A × EvalState) :
    (alloca_frame st k).2.current_frame = st.current_frame := by
  simp [alloca_frame, alloca_raw]

/-! ### SmallMap (src/starlark/src/collections/small_map.rs) -/

def NO_INDEX_THRESHOLD : Nat := 12

/-- Modelled from the spec: promotion of a 32-bit hash to 64 bits via the
MurMur3 `fmix64` bit-mixer (`idhasher::mix_u32` is not among the sources;
compare `StarlarkHashValue::hash_64` in `collections/hash.rs` and the glossary
entry "Promotion (of a hash)"). -/
def promote (h : Nat) : Nat :=
  let h1 := (h ^^^ (h >>> 33)) % 2 ^ 64
  let h2 := h1 * 0xff51afd7ed558ccd % 2 ^ 64
  let h3 := (h2 ^^^ (h2 >>> 33)) % 2 ^ 64
  let h4 := h3 * 0xc4ceb9fe1a85ec53 % 2 ^ 64
  (h4 ^^^ (h4 >>> 33)) % 2 ^ 64

/-- One record of the ordered backing vector: the 32-bit hash stored next to
key and value (`vec_map::Bucket`). -/
structure Bucket (K V : Type) where
  hash : Nat
  key : K
  value : V
deriving DecidableEq

/-- `SmallMap`: insertion-ordered records plus an optional index mapping
promoted hashes to record positions.  The `hashbrown::RawTable<usize>` index is
modelled as the list of stored positions; a table lookup scans them for a
position whose record matches the promoted hash and the key. -/
structure SmallMap (K V : Type) where
  entries : List (Bucket K V)
  index : Option (List Nat)
deriving DecidableEq

/-- Modelled from the spec: `VecMap::get_index_of_hashed` — a linear scan
comparing the 32-bit hash first, then the key (`vec_map.rs` is not among the
sources; spec §4.3 "Compact"). -/
def vecGetIndexOfHashed {K V : Type} [DecidableEq K] (h : Nat) (k : K) :
    List (Bucket K V) → Option Nat
  | [] => none
  | b :: bs =>
    if b.hash = h ∧ b.key = k then some 0
    else (vecGetIndexOfHashed h k bs).map (· + 1)

/-- The match condition of a table probe: the record at the stored position
has the probed promoted hash, and its key is equivalent to the probe key. -/
def indexCond {K V : Type} [DecidableEq K] (entries : List (Bucket K V))
    (h : Nat) (k : K) (i : Nat) : Bool :=
  match entries[i]? with
  | some b => decide (promote b.hash = promote h) && decide (b.key = k)
  | none => false

/-- `RawTable::get` on the index: find a stored position whose record matches
the promoted hash and whose key is equivalent to the probe. -/
def indexLookup {K V : Type} [DecidableEq K] (entries : List (Bucket K V))
    (idx : List Nat) (h : Nat) (k : K) : Option Nat :=
  idx.find? (indexCond entries h k)

/-- `SmallMap::get_index_of_hashed`: linear scan without the index, table
lookup with it. -/
def SmallMap.get_index_of_hashed {K V : Type} [DecidableEq K] (m : SmallMap K V)
    (h : Nat) (k : K) : Option Nat :=
  match m.index with
  | none => vecGetIndexOfHashed h k m.entries
  | some idx => indexLookup m.entries idx h k

/-- `SmallMap::get_hashed`. -/
def SmallMap.get_hashed {K V : Type} [DecidableEq K] (m : SmallMap K V)
    (h : Nat) (k : K) : Option V :=
  (m.get_index_of_hashed h k).bind fun i => (m.entries[i]?).map Bucket.value

def SmallMap.len {K V : Type} (m : SmallMap K V) : Nat := m.entries.length

def SmallMap.keys {K V : Type} (m : SmallMap K V) : List K := m.entries.map Bucket.key

/-- `SmallMap::new`: no entries, no index. -/
def SmallMap.new {K V : Type} : SmallMap K V := ⟨[], none⟩

/-- `SmallMap::with_capacity`: allocates the index up front when the requested
capacity exceeds `NO_INDEX_THRESHOLD`. -/
def SmallMap.with_capacity {K V : Type} (n : Nat) : SmallMap K V :=
  if n ≤ NO_INDEX_THRESHOLD then ⟨[], none⟩ else ⟨[], some []⟩

/-- `SmallMap::with_capacity_largest_vec`. -/
def SmallMap.with_capacity_largest_vec {K V : Type} : SmallMap K V :=
  SmallMap.with_capacity NO_INDEX_THRESHOLD

/-- `SmallMap::create_index`: build the index from the existing records,
position by position (only ever called with no index present). -/
def SmallMap.create_index {K V : Type} (m : SmallMap K V) : SmallMap K V :=
  ⟨m.entries, some (List.range m.entries.length)⟩

/-- `SmallMap::maybe_drop_index`: drop the index if the map is small enough. -/
def SmallMap.maybe_drop_index {K V : Type} (m : SmallMap K V) : SmallMap K V :=
  if m.entries.length ≤ NO_INDEX_THRESHOLD then ⟨m.entries, none⟩ else m

/-- `SmallMap::insert_unique_unchecked`: push the record; extend the index if
present, create it when the size first exceeds the threshold. -/
def SmallMap.insert_unique_unchecked {K V : Type} (m : SmallMap K V)
    (h : Nat) (k : K) (v : V) : SmallMap K V :=
  let n := m.entries.length
  let entries := m.entries ++ [⟨h, k, v⟩]
  match m.index with
  | some idx => ⟨entries, some (idx ++ [n])⟩
  | none =>
    if n + 1 = NO_INDEX_THRESHOLD + 1 then ⟨entries, some (List.range (n + 1))⟩
    else ⟨entries, none⟩

/-- Replace the value of the record at a position, keeping hash and key. -/
def setValue {K V : Type} : List (Bucket K V) → Nat → V → List (Bucket K V)
  | [], _, _ => []
  | b :: bs, 0, v => ⟨b.hash, b.key, v⟩ :: bs
  | b :: bs, n + 1, v => b :: setValue bs n v

/-- `SmallMap::insert_hashed`: replace the value in place when the key is
present (returning the previous value), append otherwise. -/
def SmallMap.insert_hashed {K V : Type} [DecidableEq K] (m : SmallMap K V)
    (h : Nat) (k : K) (v : V) : Option V × SmallMap K V :=
  match m.get_index_of_hashed h k with
  | none => (none, m.insert_unique_unchecked h k v)
  | some i => ((m.entries[i]?).map Bucket.value, ⟨setValue m.entries i v, m.index⟩)

/-- `SmallMap::remove_hashed_entry`: with an index, remove the found table
entry and shift every stored position past it down by one; without, scan and
remove in the record vector (the latter modelled from the spec, `vec_map.rs`
not being among the sources). -/
def SmallMap.remove_hashed_entry {K V : Type} [DecidableEq K] (m : SmallMap K V)
    (h : Nat) (k : K) : Option (K × V) × SmallMap K V :=
  match m.index with
  | some idx =>
    match indexLookup m.entries idx h k with
    | none => (none, m)
    | some i =>
      let idx2 := (idx.erase i).map fun j => if i ≤ j then j - 1 else j
      ((m.entries[i]?).map (fun b => (b.key, b.value)),
        ⟨m.entries.eraseIdx i, some idx2⟩)
  | none =>
    match vecGetIndexOfHashed h k m.entries with
    | none => (none, m)
    | some i =>
      ((m.entries[i]?).map (fun b => (b.key, b.value)),
        ⟨m.entries.eraseIdx i, none⟩)

/-- `impl PartialEq for SmallMap`: equal lengths and every hashed entry of the
left present in the right with equal value. -/
def SmallMap.beqImpl {K V : Type} [DecidableEq K] [DecidableEq V]
    (a b : SmallMap K V) : Bool :=
  a.len == b.len && a.entries.all fun bk => b.get_hashed bk.hash bk.key == some bk.value

/-- `impl Hash for SmallMap`: the wrapping (mod `2^64`) sum of per-entry
hashes.  The per-entry digest — `StarlarkHasher` over the `(key, value)` pair,
whose implementation is not among the sources — is the parameter `eh`. -/
def SmallMap.hashImpl {K V : Type} (eh : K → V → Nat) (m : SmallMap K V) : Nat :=
  (m.entries.map fun b => eh b.key b.value).sum % 2 ^ 64

/-- Well-formedness of a `SmallMap` under the canonical hasher `H`: keys are
unique, each record stores the canonical hash of its key, the index (when
present) holds exactly the record positions, and the index is only absent for
small maps.  These are the invariants `state_check` asserts, together with the
`Hashed` contract from `collections/hash.rs`. -/
structure SmallMap.WF {K V : Type} [DecidableEq K] (H : K → Nat)
    (m : SmallMap K V) : Prop where
  nodupKeys : m.keys.Nodup
  hashConsistent : ∀ b ∈ m.entries, b.hash = H b.key
  indexPerm : ∀ idx, m.index = some idx → idx.Perm (List.range m.entries.length)
  noIndexSmall : m.index = none → m.entries.length ≤ NO_INDEX_THRESHOLD

/-! ### SmallMap lemmas -/

section SmallMapLemmas

variable {K V : Type} [DecidableEq K]

theorem vecGet_eq_none_iff {h : Nat} {k : K} {es : List (Bucket K V)} :
    vecGetIndexOfHashed h k es = none ↔ ∀ b ∈ es, ¬(b.hash = h ∧ b.key = k) := by
  induction es with
  | nil => simp [vecGetIndexOfHashed]
  | cons b bs ih =>
    by_cases hb : b.hash = h ∧ b.key = k
    · simp [vecGetIndexOfHashed, hb]
    · simp only [vecGetIndexOfHashed, if_neg hb, Option.map_eq_none', ih,
        List.mem_cons, forall_eq_or_imp, iff_and_self]
      exact fun _ => hb

theorem vecGet_eq_some {h : Nat} {k : K} {es : List (Bucket K V)} {i : Nat}
    (he : vecGetIndexOfHashed h k es = some i) :
    ∃ b, es[i]? = some b ∧ b.hash = h ∧ b.key = k := by
  induction es generalizing i with
  | nil => simp [vecGetIndexOfHashed] at he
  | cons b bs ih =>
    by_cases hb : b.hash = h ∧ b.key = k
    · rw [vecGetIndexOfHashed, if_pos hb] at he
      cases he
      exact ⟨b, by simp, hb⟩
    · rw [vecGetIndexOfHashed, if_neg hb] at he
      cases hv : vecGetIndexOfHashed h k bs with
      | none => rw [hv] at he; simp at he
      | some j =>
        rw [hv] at he
        simp only [Option.map_some', Option.some.injEq] at he
        obtain ⟨b2, hb2, hh2⟩ := ih hv
        exact ⟨b2, by rw [← he]; simpa using hb2, hh2⟩

theorem vecGet_isSome {h : Nat} {k : K} {es : List (Bucket K V)} {i : Nat}
    {b : Bucket K V} (hi : es[i]? = some b) (hh : b.hash = h) (hk : b.key = k) :
    (vecGetIndexOfHashed h k es).isSome = true := by
  cases hv : vecGetIndexOfHashed h k es with
  | some j => rfl
  | none => exact absurd ⟨hh, hk⟩ (vecGet_eq_none_iff.mp hv b (List.getElem?_mem hi))

theorem bucket_index_unique {es : List (Bucket K V)}
    (hnd : (es.map Bucket.key).Nodup) {i j : Nat} {b b2 : Bucket K V}
    (hi : es[i]? = some b) (hj : es[j]? = some b2) (hk : b.key = b2.key) :
    i = j := by
  obtain ⟨hi2, hbi⟩ := List.getElem?_eq_some_iff.mp hi
  obtain ⟨hj2, hbj⟩ := List.getElem?_eq_some_iff.mp hj
  have hilen : i < (es.map Bucket.key).length := by simpa using hi2
  have hjlen : j < (es.map Bucket.key).length := by simpa using hj2
  have hkey : (es.map Bucket.key)[i] = (es.map Bucket.key)[j] := by
    simpa [List.getElem_map, hbi, hbj] using hk
  exact (hnd.getElem_inj_iff).mp hkey

theorem indexCond_iff {es : List (Bucket K V)} {h : Nat} {k : K} {i : Nat} :
    indexCond es h k i = true ↔
      ∃ b, es[i]? = some b ∧ promote b.hash = promote h ∧ b.key = k := by
  cases hv : es[i]? with
  | none => simp [indexCond, hv]
  | some b => simp [indexCond, hv]

/-- Implementation-agreement: under the well-formedness invariants, a lookup
through the index returns the same position as the compact linear scan. -/
theorem SmallMap.WF.lookup_agree {H : K → Nat} {m : SmallMap K V}
    (hwf : m.WF H) (k : K) :
    m.get_index_of_hashed (H k) k = vecGetIndexOfHashed (H k) k m.entries := by
  cases hidx : m.index with
  | none => simp [SmallMap.get_index_of_hashed, hidx]
  | some idx =>
    have hperm := hwf.indexPerm idx hidx
    simp only [SmallMap.get_index_of_hashed, hidx]
    cases hv : vecGetIndexOfHashed (H k) k m.entries with
    | some i =>
      obtain ⟨b, hib, hbh, hbk⟩ := vecGet_eq_some hv
      have hcond : indexCond m.entries (H k) k i = true :=
        indexCond_iff.mpr ⟨b, hib, by rw [hbh], hbk⟩
      have hlt : i < m.entries.length := (List.getElem?_eq_some_iff.mp hib).1
      have hmem : i ∈ idx := hperm.mem_iff.mpr (List.mem_range.mpr hlt)
      have hsome : (indexLookup m.entries idx (H k) k).isSome = true := by
        rw [indexLookup, List.find?_isSome]
        exact ⟨i, hmem, hcond⟩
      obtain ⟨j, hj⟩ := Option.isSome_iff_exists.mp hsome
      obtain ⟨b2, hjb, hph, hbk2⟩ := indexCond_iff.mp (List.find?_some hj)
      have hij : j = i := bucket_index_unique hwf.nodupKeys hjb hib (hbk2.trans hbk.symm)
      rw [hj, hij]
    | none =>
      have hnone := vecGet_eq_none_iff.mp hv
      rw [indexLookup, List.find?_eq_none]
      intro i hi hcond
      obtain ⟨b, hib, hbh, hbk⟩ := indexCond_iff.mp hcond
      have hbmem := List.getElem?_mem hib
      have hhash := hwf.hashConsistent b hbmem
      exact hnone b hbmem ⟨by rw [hhash, hbk], hbk⟩

theorem get_index_of_eq_none_of_not_mem {m : SmallMap K V} {h : Nat} {k : K}
    (hk : k ∉ m.keys) : m.get_index_of_hashed h k = none := by
  cases hidx : m.index with
  | none =>
    simp only [SmallMap.get_index_of_hashed, hidx]
    refine vecGet_eq_none_iff.mpr fun b hb hcond => hk ?_
    exact hcond.2 ▸ List.mem_map_of_mem Bucket.key hb
  | some idx =>
    simp only [SmallMap.get_index_of_hashed, hidx, indexLookup]
    rw [List.find?_eq_none]
    intro i hi hcond
    obtain ⟨b, hib, hbh, hbk⟩ := indexCond_iff.mp hcond
    exact hk (hbk ▸ List.mem_map_of_mem Bucket.key (List.getElem?_mem hib))

theorem get_index_of_some {m : SmallMap K V} {h : Nat} {k : K} {i : Nat}
    (hg : m.get_index_of_hashed h k = some i) :
    ∃ b, m.entries[i]? = some b ∧ b.key = k := by
  cases hidx : m.index with
  | none =>
    rw [SmallMap.get_index_of_hashed, hidx] at hg
    obtain ⟨b, hib, _, hbk⟩ := vecGet_eq_some hg
    exact ⟨b, hib, hbk⟩
  | some idx =>
    rw [SmallMap.get_index_of_hashed, hidx] at hg
    obtain ⟨b, hib, _, hbk⟩ := indexCond_iff.mp (List.find?_some hg)
    exact ⟨b, hib, hbk⟩

theorem get_hashed_some_mem {m : SmallMap K V} {h : Nat} {k : K} {v : V}
    (hg : m.get_hashed h k = some v) :
    ∃ b ∈ m.entries, b.key = k ∧ b.value = v := by
  rw [SmallMap.get_hashed] at hg
  cases hidx : m.get_index_of_hashed h k with
  | none => rw [hidx] at hg; simp at hg
  | some i =>
    rw [hidx] at hg
    obtain ⟨b, hib, hbk⟩ := get_index_of_some hidx
    refine ⟨b, List.getElem?_mem hib, hbk, ?_⟩
    simp only [Option.some_bind, hib, Option.map_some', Option.some.injEq] at hg
    exact hg

theorem SmallMap.WF.get_index_of_found {H : K → Nat} {m : SmallMap K V}
    (hwf : m.WF H) {i : Nat} {b : Bucket K V} (hib : m.entries[i]? = some b) :
    m.get_index_of_hashed (H b.key) b.key = some i := by
  rw [hwf.lookup_agree]
  have hhash : b.hash = H b.key := hwf.hashConsistent b (List.getElem?_mem hib)
  have hs := vecGet_isSome hib hhash rfl
  obtain ⟨j, hj⟩ := Option.isSome_iff_exists.mp hs
  obtain ⟨b2, hjb, _, hbk⟩ := vecGet_eq_some hj
  have hij : j = i := bucket_index_unique hwf.nodupKeys hjb hib hbk
  rw [hj, hij]

theorem setValue_map_key {es : List (Bucket K V)} {i : Nat} {v : V} :
    (setValue es i v).map Bucket.key = es.map Bucket.key := by
  induction es generalizing i with
  | nil => rfl
  | cons b bs ih =>
    cases i with
    | zero => simp [setValue]
    | succ n => simp [setValue, ih]

theorem setValue_length {es : List (Bucket K V)} {i : Nat} {v : V} :
    (setValue es i v).length = es.length := by
  induction es generalizing i with
  | nil => rfl
  | cons b bs ih =>
    cases i with
    | zero => simp [setValue]
    | succ n => simp [setValue, ih]

theorem setValue_mem {es : List (Bucket K V)} {i : Nat} {v : V} {b2 : Bucket K V}
    (hb : b2 ∈ setValue es i v) :
    ∃ b ∈ es, b2.hash = b.hash ∧ b2.key = b.key := by
  induction es generalizing i with
  | nil => cases hb
  | cons b bs ih =>
    cases i with
    | zero =>
      rcases List.mem_cons.mp hb with h | h
      · exact ⟨b, List.mem_cons_self b bs, by rw [h], by rw [h]⟩
      · exact ⟨b2, List.mem_cons_of_mem b h, rfl, rfl⟩
    | succ n =>
      rcases List.mem_cons.mp hb with h | h
      · exact ⟨b, List.mem_cons_self b bs, by rw [h], by rw [h]⟩
      · obtain ⟨b3, hb3, hh, hk⟩ := ih h
        exact ⟨b3, List.mem_cons_of_mem b hb3, hh, hk⟩

theorem insert_unique_entries {m : SmallMap K V} {h : Nat} {k : K} {v : V} :
    (m.insert_unique_unchecked h k v).entries = m.entries ++ [⟨h, k, v⟩] := by
  rw [SmallMap.insert_unique_unchecked]
  cases m.index with
  | some idx => rfl
  | none =>
    by_cases hc : m.entries.length + 1 = NO_INDEX_THRESHOLD + 1 <;> simp [hc]

theorem insert_unique_index_some {m : SmallMap K V} {h : Nat} {k : K} {v : V}
    {midx : List Nat} (hm : m.index = some midx) :
    (m.insert_unique_unchecked h k v).index = some (midx ++ [m.entries.length]) := by
  simp only [SmallMap.insert_unique_unchecked, hm]

theorem insert_unique_index_none {m : SmallMap K V} {h : Nat} {k : K} {v : V}
    (hm : m.index = none) :
    (m.insert_unique_unchecked h k v).index =
      (if m.entries.length + 1 = NO_INDEX_THRESHOLD + 1
        then some (List.range (m.entries.length + 1)) else none) := by
  simp only [SmallMap.insert_unique_unchecked, hm]
  by_cases hc : m.entries.length + 1 = NO_INDEX_THRESHOLD + 1 <;> simp [hc]

theorem insert_fresh {m : SmallMap K V} {h : Nat} {k : K} {v : V}
    (hk : k ∉ m.keys) :
    m.insert_hashed h k v = (none, m.insert_unique_unchecked h k v) := by
  rw [SmallMap.insert_hashed, get_index_of_eq_none_of_not_mem hk]

/-- Inserting with the canonical hash preserves all `SmallMap` invariants; in
particular the index is created exactly when the size first exceeds the
threshold. -/
theorem SmallMap.WF.insert_wf {H : K → Nat} {m : SmallMap K V}
    (hwf : m.WF H) (k : K) (v : V) :
    ((m.insert_hashed (H k) k v).2).WF H := by
  cases hg : m.get_index_of_hashed (H k) k with
  | some i =>
    rw [SmallMap.insert_hashed, hg]
    refine ⟨?_, ?_, ?_, ?_⟩
    · show ((setValue m.entries i v).map Bucket.key).Nodup
      rw [setValue_map_key]
      exact hwf.nodupKeys
    · intro b2 hb2
      obtain ⟨b, hb, hh, hkey⟩ := setValue_mem hb2
      rw [hh, hkey]
      exact hwf.hashConsistent b hb
    · intro idx hidx
      rw [setValue_length]
      exact hwf.indexPerm idx hidx
    · intro hnone
      rw [setValue_length]
      exact hwf.noIndexSmall hnone
  | none =>
    rw [SmallMap.insert_hashed, hg]
    have hkmem : k ∉ m.keys := by
      intro hmem
      obtain ⟨b, hb, hkey⟩ := List.mem_map.mp hmem
      have hcond : b.hash = H k ∧ b.key = k := ⟨by rw [hwf.hashConsistent b hb, hkey], hkey⟩
      rw [hwf.lookup_agree] at hg
      exact vecGet_eq_none_iff.mp hg b hb hcond
    have hkeys : (m.insert_unique_unchecked (H k) k v).entries = m.entries ++ [⟨H k, k, v⟩] :=
      insert_unique_entries
    refine ⟨?_, ?_, ?_, ?_⟩
    · show ((m.insert_unique_unchecked (H k) k v).entries.map Bucket.key).Nodup
      rw [hkeys]
      simp only [List.map_append, List.map_cons, List.map_nil]
      rw [List.nodup_append]
      refine ⟨hwf.nodupKeys, List.nodup_singleton k, ?_⟩
      intro x hx hxk
      simp only [List.mem_singleton] at hxk
      exact hkmem (hxk ▸ hx)
    · intro b2 hb2
      rw [hkeys] at hb2
      rcases List.mem_append.mp hb2 with hmem | hmem
      · exact hwf.hashConsistent b2 hmem
      · simp only [List.mem_singleton] at hmem
        rw [hmem]
    · intro idx hidx
      rw [hkeys, List.length_append, List.length_singleton]
      cases hmidx : m.index with
      | some midx =>
        rw [insert_unique_index_some hmidx] at hidx
        simp only [Option.some.injEq] at hidx
        rw [← hidx, List.range_succ]
        exact (hwf.indexPerm midx hmidx).append_right [m.entries.length]
      | none =>
        rw [insert_unique_index_none hmidx] at hidx
        by_cases hc : m.entries.length + 1 = NO_INDEX_THRESHOLD + 1
        · rw [if_pos hc] at hidx
          simp only [Option.some.injEq] at hidx
          rw [← hidx]
        · rw [if_neg hc] at hidx
          cases hidx
    · intro hnone
      rw [hkeys, List.length_append, List.length_singleton]
      cases hmidx : m.index with
      | some midx => rw [insert_unique_index_some hmidx] at hnone; cases hnone
      | none =>
        rw [insert_unique_index_none hmidx] at hnone
        by_cases hc : m.entries.length + 1 = NO_INDEX_THRESHOLD + 1
        · rw [if_pos hc] at hnone; cases hnone
        · have hsmall := hwf.noIndexSmall hmidx
          simp only [NO_INDEX_THRESHOLD] at hsmall hc ⊢
          omega

theorem maybe_drop_get_index {H : K → Nat} {m : SmallMap K V} (hwf : m.WF H)
    (k : K) :
    (m.maybe_drop_index).get_index_of_hashed (H k) k =
      m.get_index_of_hashed (H k) k := by
  rw [SmallMap.maybe_drop_index]
  by_cases hc : m.entries.length ≤ NO_INDEX_THRESHOLD
  · rw [if_pos hc]
    show vecGetIndexOfHashed (H k) k m.entries = _
    rw [hwf.lookup_agree]
  · rw [if_neg hc]

theorem create_index_get_index {H : K → Nat} {m : SmallMap K V} (hwf : m.WF H)
    (hnone : m.index = none) (k : K) :
    (m.create_index).get_index_of_hashed (H k) k = m.get_index_of_hashed (H k) k := by
  have hwfc : (m.create_index).WF H :=
    ⟨hwf.nodupKeys, hwf.hashConsistent,
      fun idx hidx => by
        simp only [SmallMap.create_index, Option.some.injEq] at hidx
        rw [← hidx]
        exact List.Perm.refl _,
      fun h => by simp [SmallMap.create_index] at h⟩
  rw [hwfc.lookup_agree, hwf.lookup_agree]
  rfl

end SmallMapLemmas

/-- C4 counterexample: `SmallMap::with_capacity(13)` allocates the index up
front, so the freshly created map has `len = 0 ≤ 12` with the index present —
"the index is present if and only if `len > 12`" is false. -/
theorem smallMap_index_iff_cex :
    ¬(((SmallMap.with_capacity 13 : SmallMap Nat Nat).index.isSome = true) ↔
      12 < (SmallMap.with_capacity 13 : SmallMap Nat Nat).len) := by
  decide

/-- C4 amended: for a well-formed map the index is present whenever
`len > 12` (the index can additionally be present at small sizes — eager
`with_capacity` allocation, or retention across shrink until
`maybe_drop_index`); destroying the index (`maybe_drop_index`) and building it
(`create_index`) preserve the results of `get_hashed` and
`get_index_of_hashed`; and insertion with the canonical hash preserves the
invariants. -/
theorem smallMap_index_amended {K V : Type} [DecidableEq K] (H : K → Nat)
    (m : SmallMap K V) (hwf : m.WF H) (k : K) :
    (12 < m.len → m.index.isSome = true) ∧
    ((m.maybe_drop_index).get_hashed (H k) k = m.get_hashed (H k) k ∧
      (m.maybe_drop_index).get_index_of_hashed (H k) k =
        m.get_index_of_hashed (H k) k) ∧
    (m.index = none →
      (m.create_index).get_hashed (H k) k = m.get_hashed (H k) k ∧
      (m.create_index).get_index_of_hashed (H k) k =
        m.get_index_of_hashed (H k) k) ∧
    (∀ v, ((m.insert_hashed (H k) k v).2).WF H) := by
  refine ⟨?_, ⟨?_, maybe_drop_get_index hwf k⟩, fun hnone => ⟨?_, create_index_get_index hwf hnone k⟩, fun v => hwf.insert_wf k v⟩
  · intro hlen
    cases hidx : m.index with
    | some idx => rfl
    | none =>
      have := hwf.noIndexSmall hidx
      simp only [NO_INDEX_THRESHOLD] at this
      exact absurd hlen (by simp [SmallMap.len]; omega)
  · rw [SmallMap.get_hashed, SmallMap.get_hashed, maybe_drop_get_index hwf k]
    have : (m.maybe_drop_index).entries = m.entries := by
      rw [SmallMap.maybe_drop_index]
      by_cases hc : m.entries.length ≤ NO_INDEX_THRESHOLD <;> simp [hc]
    rw [this]
  · rw [SmallMap.get_hashed, SmallMap.get_hashed, create_index_get_index hwf hnone k]
    rfl

/-- Build a `SmallMap` by `insert_hashed`-folding a list of pairs under the
canonical hasher (each key hashed once, as by `Hashed::new`). -/
def SmallMap.ofList {K V : Type} [DecidableEq K] (H : K → Nat)
    (l : List (K × V)) : SmallMap K V :=
  l.foldl (fun m kv => (m.insert_hashed (H kv.1) kv.1 kv.2).2) SmallMap.new

/-- The key-value pairs of the map, in iteration (= record) order. -/
def SmallMap.pairs {K V : Type} (m : SmallMap K V) : List (K × V) :=
  m.entries.map fun b => (b.key, b.value)

theorem ofList_go {K V : Type} [DecidableEq K] (H : K → Nat) :
    ∀ (l : List (K × V)) (m : SmallMap K V),
      (l.map Prod.fst).Nodup → (∀ p ∈ l, p.1 ∉ m.keys) →
      (l.foldl (fun m kv => (m.insert_hashed (H kv.1) kv.1 kv.2).2) m).pairs =
        m.pairs ++ l := by
  intro l
  induction l with
  | nil => intro m _ _; simp
  | cons p rest ih =>
    intro m hnd hfresh
    have hp : p.1 ∉ m.keys := hfresh p (List.mem_cons_self p rest)
    have hstep : ((m.insert_hashed (H p.1) p.1 p.2).2).entries =
        m.entries ++ [⟨H p.1, p.1, p.2⟩] := by
      rw [insert_fresh hp]
      exact insert_unique_entries
    have hkeys : ((m.insert_hashed (H p.1) p.1 p.2).2).keys = m.keys ++ [p.1] := by
      show ((m.insert_hashed (H p.1) p.1 p.2).2).entries.map Bucket.key = _
      rw [hstep]
      simp [SmallMap.keys]
    rw [List.map_cons] at hnd
    have hnd2 : (rest.map Prod.fst).Nodup := (List.nodup_cons.mp hnd).2
    have hhead : p.1 ∉ rest.map Prod.fst := (List.nodup_cons.mp hnd).1
    have hfresh2 : ∀ q ∈ rest, q.1 ∉ ((m.insert_hashed (H p.1) p.1 p.2).2).keys := by
      intro q hq hmem
      rw [hkeys] at hmem
      rcases List.mem_append.mp hmem with hmem | hmem
      · exact hfresh q (List.mem_cons_of_mem p hq) hmem
      · simp only [List.mem_singleton] at hmem
        exact hhead (hmem ▸ List.mem_map_of_mem Prod.fst hq)
    rw [List.foldl_cons, ih ((m.insert_hashed (H p.1) p.1 p.2).2) hnd2 hfresh2]
    have hpairs : ((m.insert_hashed (H p.1) p.1 p.2).2).pairs =
        m.pairs ++ [(p.1, p.2)] := by
      rw [SmallMap.pairs, hstep]
      simp [SmallMap.pairs]
    rw [hpairs, List.append_assoc]
    rfl

/-- C5: after a sequence of inserts of distinct keys with no removals,
iteration yields the entries in insertion order; inserting a key equal to an
existing entry keeps that entry's position and insertion index, replaces only
the value, and returns the previous value. -/
theorem smallMap_insertion_order {K V : Type} [DecidableEq K] (H : K → Nat) :
    (∀ l : List (K × V), (l.map Prod.fst).Nodup →
      (SmallMap.ofList H l).pairs = l) ∧
    (∀ (m : SmallMap K V) (i : Nat) (b : Bucket K V) (v : V), m.WF H →
      m.entries[i]? = some b →
      m.insert_hashed (H b.key) b.key v =
        (some b.value, ⟨setValue m.entries i v, m.index⟩)) := by
  constructor
  · intro l hnd
    rw [SmallMap.ofList,
      ofList_go H l SmallMap.new hnd
        (by intro p hp hmem; simp [SmallMap.new, SmallMap.keys] at hmem)]
    simp [SmallMap.pairs, SmallMap.new]
  · intro m i b v hwf hib
    simp only [SmallMap.insert_hashed, hwf.get_index_of_found hib, hib,
      Option.map_some']

/-- C5 witness: inserting `(1, 10)` then `(2, 20)` iterates in insertion
order, and re-inserting key 1 keeps its position, replaces only the value and
returns the previous one. -/
theorem smallMap_insertion_order_witness :
    (SmallMap.ofList (fun n => n) [(1, 10), (2, 20)] : SmallMap Nat Nat).pairs =
        [(1, 10), (2, 20)] ∧
    (SmallMap.ofList (fun n => n) [(1, 10), (2, 20)] :
        SmallMap Nat Nat).insert_hashed 1 1 99 =
      (some 10,
        ⟨setValue (SmallMap.ofList (fun n => n) [(1, 10), (2, 20)] :
            SmallMap Nat Nat).entries 0 99,
          (SmallMap.ofList (fun n => n) [(1, 10), (2, 20)] :
            SmallMap Nat Nat).index⟩) := by
  constructor
  · exact (smallMap_insertion_order (fun n => n)).1 [(1, 10), (2, 20)] (by decide)
  · exact (smallMap_insertion_order (fun n => n)).2
      (SmallMap.ofList (fun n => n) [(1, 10), (2, 20)]) 0 ⟨1, 1, 10⟩ 99
      ⟨by decide, by decide,
        fun idx h => by
          rw [show (SmallMap.ofList (fun n : Nat => n) [(1, 10), (2, 20)] :
            SmallMap Nat Nat).index = none from rfl] at h
          exact Option.noConfusion h,
        fun _ => by decide⟩
      (by decide)

/-- C6: map equality is equal length plus left-entries-present-in-right, and
equal maps have equal wrapping-sum hashes for every per-entry digest,
regardless of insertion order. -/
theorem smallMap_eq_hash {K V : Type} [DecidableEq K] [DecidableEq V]
    (H : K → Nat) (a b : SmallMap K V) (hwa : a.WF H) :
    (a.beqImpl b = true ↔
      (a.len = b.len ∧
        ∀ bk ∈ a.entries, b.get_hashed bk.hash bk.key = some bk.value)) ∧
    (a.beqImpl b = true → ∀ eh : K → V → Nat, a.hashImpl eh = b.hashImpl eh) := by
  have hbeq : a.beqImpl b = true ↔
      (a.len = b.len ∧
        ∀ bk ∈ a.entries, b.get_hashed bk.hash bk.key = some bk.value) := by
    simp [SmallMap.beqImpl, List.all_eq_true]
  refine ⟨hbeq, fun he eh => ?_⟩
  obtain ⟨hlen, hall⟩ := hbeq.mp he
  have hnd : a.pairs.Nodup := by
    have hkeys : (a.pairs.map Prod.fst).Nodup := by
      have : a.pairs.map Prod.fst = a.entries.map Bucket.key := by
        rw [SmallMap.pairs, List.map_map]
        rfl
      rw [this]
      exact hwa.nodupKeys
    exact List.Nodup.of_map Prod.fst hkeys
  have hsub : a.pairs ⊆ b.pairs := by
    intro p hp
    obtain ⟨bk, hbk, hpk⟩ := List.mem_map.mp hp
    obtain ⟨b2, hb2, hb2k, hb2v⟩ := get_hashed_some_mem (hall bk hbk)
    rw [← hpk]
    refine List.mem_map.mpr ⟨b2, hb2, ?_⟩
    rw [hb2k, hb2v]
  have hlen2 : b.pairs.length ≤ a.pairs.length := by
    rw [SmallMap.pairs, SmallMap.pairs, List.length_map, List.length_map]
    exact le_of_eq hlen.symm
  have hperm : a.pairs.Perm b.pairs :=
    (List.Nodup.subperm hnd hsub).perm_of_length_le hlen2
  have hsum : (a.pairs.map fun p => eh p.1 p.2).sum =
      (b.pairs.map fun p => eh p.1 p.2).sum :=
    (hperm.map fun p => eh p.1 p.2).sum_eq
  have hma : a.entries.map (fun bk => eh bk.key bk.value) =
      a.pairs.map fun p => eh p.1 p.2 := by
    rw [SmallMap.pairs, List.map_map]
    rfl
  have hmb : b.entries.map (fun bk => eh bk.key bk.value) =
      b.pairs.map fun p => eh p.1 p.2 := by
    rw [SmallMap.pairs, List.map_map]
    rfl
  rw [SmallMap.hashImpl, SmallMap.hashImpl, hma, hmb, hsum]

/-- C6 witness: two maps with the same entries inserted in opposite orders are
equal and have equal hashes under the digest `fun k v => k + v`. -/
theorem smallMap_eq_hash_witness :
    ((SmallMap.ofList (fun n => n) [(1, 10), (2, 20)] : SmallMap Nat Nat).beqImpl
        (SmallMap.ofList (fun n => n) [(2, 20), (1, 10)]) = true) ∧
    (SmallMap.ofList (fun n => n) [(1, 10), (2, 20)] : SmallMap Nat Nat).hashImpl
        (fun k v => k + v) =
      (SmallMap.ofList (fun n => n) [(2, 20), (1, 10)]).hashImpl
        (fun k v => k + v) := by
  refine ⟨by decide, ?_⟩
  exact (smallMap_eq_hash (fun n => n)
    (SmallMap.ofList (fun n => n) [(1, 10), (2, 20)])
    (SmallMap.ofList (fun n => n) [(2, 20), (1, 10)])
    ⟨by decide, by decide,
      fun idx h => by
        rw [show (SmallMap.ofList (fun n : Nat => n) [(1, 10), (2, 20)] :
          SmallMap Nat Nat).index = none from rfl] at h
        exact Option.noConfusion h,
      fun _ => by decide⟩).2 (by decide) (fun k v => k + v)

/-- C4 witness: the amended theorem applied to the empty map under the
identity hasher at key 5. -/
theorem smallMap_index_amended_witness :
    ((SmallMap.new : SmallMap Nat Nat).maybe_drop_index).get_hashed 5 5 =
      (SmallMap.new : SmallMap Nat Nat).get_hashed 5 5 :=
  (smallMap_index_amended (fun n => n) SmallMap.new
    ⟨by decide, by decide, fun idx h => Option.noConfusion h, fun _ => by decide⟩
    5).2.1.1

/-! ### Values and parameter binding (src/starlark/src/eval/runtime/arguments.rs) -/

/-- A closed model of runtime values, sufficient for the parameter-binding
protocol: inline integers, strings, lists, tuples, dictionaries (association
lists in insertion order, as `Dict` wraps a `SmallMap`) and `None`. -/
inductive Val where
  | noneV : Val
  | int : Int → Val
  | str : String → Val
  | list : List Val → Val
  | tuple : List Val → Val
  | dict : List (Val × Val) → Val

/-- Modelled from the spec: the canonical 32-bit string digest
(`StarlarkHasher` in `collections/hasher.rs` is not among the sources; the
spec only requires a fixed 32-bit digest, `HashedKey` §3).  All insertions and
probes below hash consistently through this function. -/
def strHash (s : String) : Nat :=
  s.data.foldl (fun h c => (h * 31 + c.toNat) % 2 ^ 32) 5381

/-- Modelled from the spec: `Value::with_iterator` for the `*args` argument —
lists and tuples iterate over their elements, dictionaries over their keys,
anything else is not iterable (value iteration is not among the sources). -/
def Val.iterate : Val → Option (List Val)
  | .list xs => some xs
  | .tuple xs => some xs
  | .dict xs => some (xs.map Prod.fst)
  | _ => none

/-- `StringValue::new`: succeed exactly on string values. -/
def Val.asString : Val → Option String
  | .str s => some s
  | _ => none

/-- `Dict::from_value`: succeed exactly on dictionary values. -/
def Val.asDict : Val → Option (List (Val × Val))
  | .dict xs => some xs
  | _ => none

/-- `FunctionError` (src/starlark/src/eval/runtime/arguments.rs). -/
inductive FunctionError where
  | MissingParameter : String → String → FunctionError
  | ExtraPositionalParameters : Nat → String → FunctionError
  | ExtraNamedParameters : List String → String → FunctionError
  | RepeatedParameter : String → FunctionError
  | ArgsValueIsNotString : FunctionError
  | ArgsArrayIsNotIterable : FunctionError
  | KwArgsIsNotDict : FunctionError
  | WrongNumberOfParameters : Nat → Nat → Nat → FunctionError

/-- `ParameterKind`. -/
inductive ParameterKind where
  | required : ParameterKind
  | optional : ParameterKind
  | defaulted : Val → ParameterKind
  | args : ParameterKind
  | kwargs : ParameterKind

/-- `ParametersSpec`.  The `SymbolMap` name table is modelled as an
association list from name to declaration index (`symbol_map.rs` is not among
the sources; only ordered name-to-index lookup is used). -/
structure ParametersSpec where
  function_name : String
  kinds : List ParameterKind
  names : List (String × Nat)
  positional : Nat
  no_args : Bool
  args : Option Nat
  kwargs : Option Nat

/-- `SymbolMap::get`: lookup of a name in the spec's name table. -/
def namesGet (names : List (String × Nat)) (s : String) : Option Nat :=
  (names.find? fun p => p.1 == s).map Prod.snd

/-- `ParametersSpec::new`. -/
def ParametersSpec.new (name : String) : ParametersSpec :=
  ⟨name, [], [], 0, false, none, none⟩

/-- `ParametersSpec::add`: push the kind, record the name at the new index,
and extend the positionally fillable prefix unless `*args`/`no_args` was
already declared. -/
def ParametersSpec.add (sp : ParametersSpec) (name : String)
    (val : ParameterKind) : ParametersSpec :=
  { sp with
    kinds := sp.kinds ++ [val],
    names := sp.names ++ [(name, sp.kinds.length)],
    positional :=
      if sp.args = none ∧ sp.no_args = false then sp.kinds.length + 1
      else sp.positional }

/-- `ParametersSpec::required`. -/
def ParametersSpec.required (sp : ParametersSpec) (name : String) :
    ParametersSpec :=
  sp.add name .required

/-- `ParametersSpec::optional`. -/
def ParametersSpec.optional (sp : ParametersSpec) (name : String) :
    ParametersSpec :=
  sp.add name .optional

/-- `ParametersSpec::defaulted`. -/
def ParametersSpec.defaulted (sp : ParametersSpec) (name : String) (v : Val) :
    ParametersSpec :=
  sp.add name (.defaulted v)

/-- `ParametersSpec::args` (named `addArgs` here to avoid clashing with the
field projection). -/
def ParametersSpec.addArgs (sp : ParametersSpec) : ParametersSpec :=
  { sp with kinds := sp.kinds ++ [.args], args := some sp.kinds.length }

/-- `ParametersSpec::no_args` (named `addNoArgs` here to avoid clashing with
the field projection). -/
def ParametersSpec.addNoArgs (sp : ParametersSpec) : ParametersSpec :=
  { sp with no_args := true }

/-- `ParametersSpec::kwargs` (named `addKwargs` here to avoid clashing with
the field projection). -/
def ParametersSpec.addKwargs (sp : ParametersSpec) : ParametersSpec :=
  { sp with kinds := sp.kinds ++ [.kwargs], kwargs := some sp.kinds.length }

/-- `ParametersSpec::param_name_at` (total model: a missing name, which the
source would `unwrap`-panic on, yields the empty string). -/
def ParametersSpec.param_name_at (sp : ParametersSpec) (index : Nat) : String :=
  match sp.kinds[index]? with
  | some .args => "args"
  | some .kwargs => "kwargs"
  | _ => ((sp.names.find? fun p => p.2 == index).map Prod.fst).getD ""

/-- `ParametersSpec::signature` via `collect_signature`: the parameter list is
disabled (`if false`) in the source, so the signature is the function name. -/
def ParametersSpec.signature (sp : ParametersSpec) : String := sp.function_name

/-- `Arguments`: positional slice, parallel named/names slices, optional
`*args` value, optional `**kwargs` value.  A `names` entry carries its
pre-computed hash in the source (`Symbol`); hashing is recomputed by
`strHash` here, consistently everywhere. -/
structure Arguments where
  pos : List Val
  named : List Val
  names : List String
  args : Option Val
  kwargs : Option Val

/-- `LazyKwargs::insert`: lazily create the buffer
(`with_capacity_largest_vec`), insert, and report whether the key was a
duplicate. -/
def lazyInsert (buf : Option (SmallMap String Val)) (s : String) (v : Val) :
    Bool × Option (SmallMap String Val) :=
  match buf with
  | none =>
    (false, some ((SmallMap.with_capacity_largest_vec).insert_hashed (strHash s) s v).2)
  | some mp =>
    let r := mp.insert_hashed (strHash s) s v
    (r.1.isSome, some r.2)

/-- `LazyKwargs::alloc`: materialise the buffer as a dictionary value. -/
def lazyAlloc (buf : Option (SmallMap String Val)) : Val :=
  Val.dict (match buf with
    | some mp => mp.entries.map fun b => (Val.str b.key, b.value)
    | none => [])

/-- Write the positional arguments slot by slot (`zip` in the source): stops
at the shorter of the two lists. -/
def zipWrite : List (Option Val) → List Val → List (Option Val)
  | slots, [] => slots
  | [], _ => []
  | _ :: ss, v :: vs => some v :: zipWrite ss vs

/-- The positional-filling loop shared by step 2 (positionals) and step 4
(`*args`): fill slots while `next_position < positional`, overflow into
`star_args`. -/
def fillPositional (positional : Nat) :
    Nat → List Val → List (Option Val) → List (Option Val) × List Val × Nat
  | np, [], slots => (slots, [], np)
  | np, v :: vs, slots =>
    if np < positional then
      fillPositional positional (np + 1) vs (slots.set np (some v))
    else
      ((fillPositional positional np vs slots).1,
        v :: (fillPositional positional np vs slots).2.1,
        (fillPositional positional np vs slots).2.2)

/-- Step 2 of `collect_slow`: the fast branch writes all positionals by `zip`
when they fit, otherwise the loop splits them between slots and `star_args`. -/
def collectPositional (sp : ParametersSpec) (pos : List Val)
    (slots : List (Option Val)) : List (Option Val) × List Val × Nat :=
  if pos.length ≤ sp.positional then (zipWrite slots pos, [], pos.length)
  else fillPositional sp.positional 0 pos slots

/-- Step 3 of `collect_slow`: named arguments — write declared names into
their slots recording the lowest written index, and put unknown names into the
lazily created kwargs buffer, ignoring the duplicate flag. -/
def collectNamed (sp : ParametersSpec) :
    List (String × Val) → List (Option Val) → Option (SmallMap String Val) →
      Option Nat →
      List (Option Val) × Option (SmallMap String Val) × Option Nat
  | [], slots, buf, low => (slots, buf, low)
  | (n, v) :: rest, slots, buf, low =>
    match namesGet sp.names n with
    | none => collectNamed sp rest slots (lazyInsert buf n v).2 low
    | some i =>
      collectNamed sp rest (slots.set i (some v)) buf
        (some (match low with | none => i | some l => min l i))

/-- Step 4 of `collect_slow`: the caller's `*args`, iterated and fed to the
positional-filling loop; a non-iterable value is `ArgsArrayIsNotIterable`. -/
def collectStarArgs (sp : ParametersSpec) (argsOpt : Option Val)
    (slots : List (Option Val)) (star : List Val) (np : Nat) :
    Except FunctionError (List (Option Val) × List Val × Nat) :=
  match argsOpt with
  | none => .ok (slots, star, np)
  | some a =>
    match a.iterate with
    | none => .error .ArgsArrayIsNotIterable
    | some xs =>
      .ok ((fillPositional sp.positional np xs slots).1,
        star ++ (fillPositional sp.positional np xs slots).2.1,
        (fillPositional sp.positional np xs slots).2.2)

/-- Step 5 of `collect_slow`: if the positionals written overrun the lowest
slot a named argument wrote, that parameter was supplied twice. -/
def checkCollision (sp : ParametersSpec) (np : Nat) (low : Option Nat) :
    Except FunctionError Unit :=
  match low with
  | some l =>
    if l < np then .error (.RepeatedParameter (sp.param_name_at l)) else .ok ()
  | none => .ok ()

/-- One entry of the caller's `**kwargs` dict in step 6 of `collect_slow`:
the key must be a string; a declared parameter whose slot is already filled,
or a key already in the kwargs buffer, is a repeated parameter. -/
def collectKwargsEntry (sp : ParametersSpec) (slots : List (Option Val))
    (buf : Option (SmallMap String Val)) (k v : Val) :
    Except FunctionError (List (Option Val) × Option (SmallMap String Val)) :=
  match k.asString with
  | none => .error .ArgsValueIsNotString
  | some s =>
    match namesGet sp.names s with
    | some i =>
      let repeated := ((slots[i]?).getD none).isSome
      if repeated then .error (.RepeatedParameter s)
      else .ok (slots.set i (some v), buf)
    | none =>
      let r := lazyInsert buf s v
      if r.1 then .error (.RepeatedParameter s) else .ok (slots, r.2)

/-- All entries of the caller's `**kwargs` dict, in iteration order. -/
def collectKwargsList (sp : ParametersSpec) :
    List (Val × Val) → List (Option Val) → Option (SmallMap String Val) →
      Except FunctionError (List (Option Val) × Option (SmallMap String Val))
  | [], slots, buf => .ok (slots, buf)
  | (k, v) :: rest, slots, buf => do
    let r ← collectKwargsEntry sp slots buf k v
    collectKwargsList sp rest r.1 r.2

/-- Step 6 of `collect_slow`: the caller's `**kwargs` must be a dict. -/
def collectKwargs (sp : ParametersSpec) (kwargsOpt : Option Val)
    (slots : List (Option Val)) (buf : Option (SmallMap String Val)) :
    Except FunctionError (List (Option Val) × Option (SmallMap String Val)) :=
  match kwargsOpt with
  | none => .ok (slots, buf)
  | some pk =>
    match pk.asDict with
    | none => .error .KwArgsIsNotDict
    | some xs => collectKwargsList sp xs slots buf

/-- Step 7 of `collect_slow`: from `next_position` upwards, an empty
`Required` slot is a missing parameter, an empty `Defaulted` slot receives its
default, anything else stays empty. -/
def fillDefaultsFrom (sp : ParametersSpec) (index : Nat)
    (slots : List (Option Val)) : Except FunctionError (List (Option Val)) :=
  if h : index < sp.kinds.length then
    match (slots[index]?).getD none with
    | some _ => fillDefaultsFrom sp (index + 1) slots
    | none =>
      match sp.kinds[index]? with
      | some .required =>
        .error (.MissingParameter (sp.param_name_at index) sp.signature)
      | some (.defaulted x) => fillDefaultsFrom sp (index + 1) (slots.set index (some x))
      | _ => fillDefaultsFrom sp (index + 1) slots
  else .ok slots
termination_by sp.kinds.length - index

/-- Step 8 of `collect_slow`: materialise `*args`/`**kwargs` slots, or raise
the extra-parameter diagnostics when overflow remains with no slot for it. -/
def finalize (sp : ParametersSpec) (slots : List (Option Val))
    (star : List Val) (buf : Option (SmallMap String Val)) :
    Except FunctionError (List (Option Val)) := do
  let slots2 ←
    match sp.args with
    | some ap => pure (slots.set ap (some (Val.tuple star)))
    | none =>
      if star.isEmpty then pure slots
      else .error (.ExtraPositionalParameters star.length sp.signature)
  match sp.kwargs with
  | some kp => pure (slots2.set kp (some (lazyAlloc buf)))
  | none =>
    match buf with
    | some mp => .error (.ExtraNamedParameters (mp.entries.map Bucket.key) sp.signature)
    | none => pure slots2

/-- The `collectNamed` pass as it occurs inside `collect_slow`: named
arguments applied to the slots produced by the positional pass. -/
def namedPass (sp : ParametersSpec) (args : Arguments) :
    List (Option Val) × Option (SmallMap String Val) × Option Nat :=
  collectNamed sp (args.names.zip args.named)
    (collectPositional sp args.pos (List.replicate sp.kinds.length none)).1
    none none

/-- Steps 1–4 of `collect_slow`: positional, named and `*args` processing. -/
def stage3 (sp : ParametersSpec) (args : Arguments) :
    Except FunctionError
      (List (Option Val) × List Val × Nat × Option (SmallMap String Val) ×
        Option Nat) :=
  (collectStarArgs sp args.args (namedPass sp args).1
      (collectPositional sp args.pos (List.replicate sp.kinds.length none)).2.1
      (collectPositional sp args.pos (List.replicate sp.kinds.length none)).2.2).map
    fun r3 =>
      (r3.1, r3.2.1, r3.2.2, (namedPass sp args).2.1, (namedPass sp args).2.2)

/-- Steps 1–6 of `collect_slow`: adds the collision check and `**kwargs`. -/
def stage6 (sp : ParametersSpec) (args : Arguments) :
    Except FunctionError
      (List (Option Val) × List Val × Nat × Option (SmallMap String Val)) := do
  let r3 ← stage3 sp args
  checkCollision sp r3.2.2.1 r3.2.2.2.2
  let r6 ← collectKwargs sp args.kwargs r3.1 r3.2.2.2.1
  pure (r6.1, r3.2.1, r3.2.2.1, r6.2)

/-- `ParametersSpec::collect_slow`. -/
def collect_slow (sp : ParametersSpec) (args : Arguments) :
    Except FunctionError (List (Option Val)) := do
  let r6 ← stage6 sp args
  let slots ← fillDefaultsFrom sp r6.2.2.1 r6.1
  finalize sp slots r6.2.1 r6.2.2.2

/-- `ParametersSpec::collect_inline`: the all-positional fast path copies the
arguments straight into the slots; otherwise fall through to `collect_slow`. -/
def collect (sp : ParametersSpec) (args : Arguments) :
    Except FunctionError (List (Option Val)) :=
  if args.pos.length == sp.positional && args.pos.length == sp.kinds.length &&
      args.named.isEmpty && args.args.isNone && args.kwargs.isNone then
    .ok (zipWrite (List.replicate sp.kinds.length none) args.pos)
  else collect_slow sp args

/-! ### Parameter-binding lemmas -/

theorem exc_ok_bind {E A B : Type} (a : A) (f : A → Except E B) :
    (Except.ok a : Except E A) >>= f = f a := rfl

theorem exc_err_bind {E A B : Type} (e : E) (f : A → Except E B) :
    (Except.error e : Except E A) >>= f = .error e := rfl

theorem exc_map_ok {E A B : Type} (a : A) (f : A → B) :
    (Except.ok a : Except E A).map f = .ok (f a) := rfl

theorem exc_map_err {E A B : Type} (e : E) (f : A → B) :
    (Except.error e : Except E A).map f = .error e := rfl

theorem exc_pure {E A : Type} (a : A) : (pure a : Except E A) = .ok a := rfl

/-- All slots below `np` hold a value: they were written by the positional
passes, which only ever write `some`. -/
def FilledBelow (np : Nat) (s : List (Option Val)) : Prop :=
  ∀ j, j < np → s[j]? ≠ some none

theorem zipWrite_filled : ∀ (slots : List (Option Val)) (pos : List Val),
    FilledBelow pos.length (zipWrite slots pos)
  | slots, [] => by intro j hj; simp at hj
  | [], v :: vs => by intro j hj; simp [zipWrite]
  | s :: ss, v :: vs => by
    intro j hj
    cases j with
    | zero => simp [zipWrite]
    | succ n =>
      show (zipWrite (s :: ss) (v :: vs))[n + 1]? ≠ some none
      rw [zipWrite, List.getElem?_cons_succ]
      exact zipWrite_filled ss vs n (by simpa using hj)

theorem filled_set_some {np : Nat} {s : List (Option Val)}
    (hf : FilledBelow np s) (i : Nat) (v : Val) :
    FilledBelow np (s.set i (some v)) := by
  intro j hj
  rw [List.getElem?_set]
  rcases eq_or_ne i j with h | h
  · rw [if_pos h]
    by_cases hl : i < s.length <;> simp [hl]
  · rw [if_neg h]
    exact hf j hj

theorem filled_extend {np : Nat} {s : List (Option Val)}
    (hf : FilledBelow np s) (v : Val) :
    FilledBelow (np + 1) (s.set np (some v)) := by
  intro j hj
  rw [List.getElem?_set]
  rcases eq_or_ne np j with h | h
  · rw [if_pos h]
    by_cases hl : np < s.length <;> simp [hl]
  · rw [if_neg h]
    exact hf j (by omega)

theorem fillPositional_filled (positional : Nat) :
    ∀ (vs : List Val) (np : Nat) (s : List (Option Val)), FilledBelow np s →
      FilledBelow (fillPositional positional np vs s).2.2
        (fillPositional positional np vs s).1
  | [], np, s, hf => by simpa [fillPositional] using hf
  | v :: vs, np, s, hf => by
    rw [fillPositional]
    by_cases hnp : np < positional
    · rw [if_pos hnp]
      exact fillPositional_filled positional vs (np + 1) _ (filled_extend hf v)
    · rw [if_neg hnp]
      exact fillPositional_filled positional vs np s hf

theorem collectPositional_filled (sp : ParametersSpec) (pos : List Val)
    (slots : List (Option Val)) :
    FilledBelow (collectPositional sp pos slots).2.2
      (collectPositional sp pos slots).1 := by
  rw [collectPositional]
  by_cases hc : pos.length ≤ sp.positional
  · rw [if_pos hc]
    exact zipWrite_filled slots pos
  · rw [if_neg hc]
    exact fillPositional_filled sp.positional pos 0 slots (fun j hj => by omega)

theorem collectNamed_filled (sp : ParametersSpec) :
    ∀ (l : List (String × Val)) (s : List (Option Val))
      (buf : Option (SmallMap String Val)) (low : Option Nat) {np : Nat},
      FilledBelow np s → FilledBelow np (collectNamed sp l s buf low).1
  | [], s, buf, low, np, hf => hf
  | (n, v) :: rest, s, buf, low, np, hf => by
    rw [collectNamed]
    cases hn : namesGet sp.names n with
    | none => exact collectNamed_filled sp rest s _ low hf
    | some i => exact collectNamed_filled sp rest _ buf _ (filled_set_some hf i v)

theorem collectStarArgs_filled {sp : ParametersSpec} {a : Option Val}
    {s : List (Option Val)} {star : List Val} {np : Nat}
    {r : List (Option Val) × List Val × Nat}
    (he : collectStarArgs sp a s star np = .ok r) (hf : FilledBelow np s) :
    FilledBelow r.2.2 r.1 := by
  cases a with
  | none =>
    simp only [collectStarArgs] at he
    cases he
    exact hf
  | some av =>
    cases hit : av.iterate with
    | none =>
      simp only [collectStarArgs, hit] at he
      exact Except.noConfusion he
    | some xs =>
      simp only [collectStarArgs, hit] at he
      cases he
      exact fillPositional_filled sp.positional xs np s hf

theorem collectKwargsEntry_filled {sp : ParametersSpec}
    {s : List (Option Val)} {buf : Option (SmallMap String Val)} {k v : Val}
    {s2 : List (Option Val)} {buf2 : Option (SmallMap String Val)} {np : Nat}
    (he : collectKwargsEntry sp s buf k v = .ok (s2, buf2))
    (hf : FilledBelow np s) : FilledBelow np s2 := by
  cases hks : k.asString with
  | none =>
    simp only [collectKwargsEntry, hks] at he
    exact Except.noConfusion he
  | some str =>
    cases hn : namesGet sp.names str with
    | some i =>
      simp only [collectKwargsEntry, hks, hn] at he
      split at he
      · exact Except.noConfusion he
      · cases he
        exact filled_set_some hf i v
    | none =>
      simp only [collectKwargsEntry, hks, hn] at he
      split at he
      · exact Except.noConfusion he
      · cases he
        exact hf

theorem collectKwargsList_filled (sp : ParametersSpec) :
    ∀ (xs : List (Val × Val)) (s : List (Option Val))
      (buf : Option (SmallMap String Val)) (s2 : List (Option Val))
      (buf2 : Option (SmallMap String Val)) {np : Nat},
      collectKwargsList sp xs s buf = .ok (s2, buf2) → FilledBelow np s →
      FilledBelow np s2
  | [], s, buf, s2, buf2, np, he, hf => by
    rw [collectKwargsList] at he
    cases he
    exact hf
  | (k, v) :: rest, s, buf, s2, buf2, np, he, hf => by
    rw [collectKwargsList] at he
    cases hke : collectKwargsEntry sp s buf k v with
    | error e =>
      rw [hke, exc_err_bind] at he
      exact Except.noConfusion he
    | ok r =>
      rw [hke, exc_ok_bind] at he
      exact collectKwargsList_filled sp rest r.1 r.2 s2 buf2 he
        (collectKwargsEntry_filled (by rw [← hke]) hf)

theorem collectKwargs_filled {sp : ParametersSpec} {kopt : Option Val}
    {s : List (Option Val)} {buf : Option (SmallMap String Val)}
    {s2 : List (Option Val)} {buf2 : Option (SmallMap String Val)} {np : Nat}
    (he : collectKwargs sp kopt s buf = .ok (s2, buf2))
    (hf : FilledBelow np s) : FilledBelow np s2 := by
  cases kopt with
  | none =>
    simp only [collectKwargs] at he
    cases he
    exact hf
  | some pk =>
    cases hd : pk.asDict with
    | none =>
      simp only [collectKwargs, hd] at he
      exact Except.noConfusion he
    | some xs =>
      simp only [collectKwargs, hd] at he
      exact collectKwargsList_filled sp xs s buf s2 buf2 he hf

theorem stage3_filled {sp : ParametersSpec} {args : Arguments}
    {s : List (Option Val)} {star : List Val} {np : Nat}
    {buf : Option (SmallMap String Val)} {low : Option Nat}
    (h3 : stage3 sp args = .ok (s, star, np, buf, low)) : FilledBelow np s := by
  unfold stage3 at h3
  cases hsa : collectStarArgs sp args.args (namedPass sp args).1
      (collectPositional sp args.pos (List.replicate sp.kinds.length none)).2.1
      (collectPositional sp args.pos (List.replicate sp.kinds.length none)).2.2 with
  | error e =>
    rw [hsa, exc_map_err] at h3
    exact Except.noConfusion h3
  | ok r3 =>
    rw [hsa, exc_map_ok] at h3
    cases h3
    exact collectStarArgs_filled hsa
      (collectNamed_filled sp _ _ none none
        (collectPositional_filled sp args.pos _))

theorem stage6_filled {sp : ParametersSpec} {args : Arguments}
    {s : List (Option Val)} {star : List Val} {np : Nat}
    {buf : Option (SmallMap String Val)}
    (h6 : stage6 sp args = .ok (s, star, np, buf)) : FilledBelow np s := by
  unfold stage6 at h6
  cases h3 : stage3 sp args with
  | error e =>
    rw [h3, exc_err_bind] at h6
    exact Except.noConfusion h6
  | ok r3 =>
    obtain ⟨s3, star3, np3, buf3, low3⟩ := r3
    rw [h3, exc_ok_bind] at h6
    cases hcc : checkCollision sp np3 low3 with
    | error e =>
      rw [hcc] at h6
      exact Except.noConfusion h6
    | ok u =>
      rw [hcc, exc_ok_bind] at h6
      cases hkw : collectKwargs sp args.kwargs s3 buf3 with
      | error e =>
        rw [hkw, exc_err_bind] at h6
        exact Except.noConfusion h6
      | ok r6 =>
        rw [hkw, exc_ok_bind, exc_pure] at h6
        cases h6
        exact collectKwargs_filled (by rw [← hkw]) (stage3_filled h3)

/-- If some `Required` slot at or above the cursor is still empty, the
defaults-and-required pass fails with a missing-parameter diagnostic. -/
theorem fillDefaults_missing (sp : ParametersSpec) :
    ∀ (index : Nat) (slots : List (Option Val)) (i : Nat),
      index ≤ i → sp.kinds[i]? = some ParameterKind.required → slots[i]? = some none →
      ∃ n f, fillDefaultsFrom sp index slots = .error (.MissingParameter n f) := by
  intro index slots
  induction index, slots using fillDefaultsFrom.induct sp with
  | case1 index slots hlt val hval ih =>
    intro i hge hreq hempty
    have hi : i ≠ index := by
      intro h
      rw [h] at hempty
      rw [hempty] at hval
      simp at hval
    obtain ⟨n, f, h⟩ := ih i (by omega) hreq hempty
    refine ⟨n, f, ?_⟩
    rw [fillDefaultsFrom, dif_pos hlt, hval]
    exact h
  | case2 index slots hlt hval hreq2 =>
    intro i hge hreq hempty
    refine ⟨sp.param_name_at index, sp.signature, ?_⟩
    rw [fillDefaultsFrom, dif_pos hlt, hval, hreq2]
  | case3 index slots hlt hval x hk ih =>
    intro i hge hreq hempty
    have hi : i ≠ index := by
      intro h
      rw [h, hk] at hreq
      simp at hreq
    obtain ⟨n, f, h⟩ :=
      ih i (by omega) hreq (by rw [List.getElem?_set_ne (by omega)]; exact hempty)
    refine ⟨n, f, ?_⟩
    rw [fillDefaultsFrom, dif_pos hlt, hval, hk]
    exact h
  | case4 index slots hlt hval hnreq hndef ih =>
    intro i hge hreq hempty
    have hi : i ≠ index := fun h => hnreq (h ▸ hreq)
    obtain ⟨n, f, h⟩ := ih i (by omega) hreq hempty
    refine ⟨n, f, ?_⟩
    rcases hk : sp.kinds[index]? with _ | k
    · rw [fillDefaultsFrom, dif_pos hlt, hval, hk]
      exact h
    · cases k with
      | required => exact (hnreq hk).elim
      | defaulted x => exact (hndef x hk).elim
      | optional =>
        rw [fillDefaultsFrom, dif_pos hlt, hval, hk]
        exact h
      | args =>
        rw [fillDefaultsFrom, dif_pos hlt, hval, hk]
        exact h
      | kwargs =>
        rw [fillDefaultsFrom, dif_pos hlt, hval, hk]
        exact h
  | case5 index slots hlt =>
    intro i hge hreq hempty
    obtain ⟨hlen, _⟩ := List.getElem?_eq_some_iff.mp hreq
    omega

/-- C1: on the slow binding path, once positional, named, `*args` and
`**kwargs` processing has succeeded (`stage6`), any still-empty `Required`
slot makes binding fail with `MissingParameter`; and an
`ExtraPositionalParameters`/`ExtraNamedParameters` error is produced only when
no required slot was left empty. -/
theorem collect_missing_before_extra (sp : ParametersSpec) (args : Arguments)
    (s : List (Option Val)) (star : List Val) (np : Nat)
    (buf : Option (SmallMap String Val))
    (h6 : stage6 sp args = .ok (s, star, np, buf)) :
    ((∃ i : Nat, sp.kinds[i]? = some ParameterKind.required ∧ s[i]? = some none) →
      ∃ n f, collect_slow sp args = .error (.MissingParameter n f)) ∧
    (∀ e, collect_slow sp args = .error e →
      ((∃ cnt f, e = .ExtraPositionalParameters cnt f) ∨
        (∃ ns f, e = .ExtraNamedParameters ns f)) →
      ¬∃ i : Nat, sp.kinds[i]? = some ParameterKind.required ∧ s[i]? = some none) := by
  have hfar : collect_slow sp args =
      fillDefaultsFrom sp np s >>= fun s5 => finalize sp s5 star buf := by
    unfold collect_slow
    rw [h6, exc_ok_bind]
  have hmain : (∃ i : Nat, sp.kinds[i]? = some ParameterKind.required ∧ s[i]? = some none) →
      ∃ n f, collect_slow sp args = .error (.MissingParameter n f) := by
    rintro ⟨i, hreq, hempty⟩
    have hge : np ≤ i := by
      by_contra hlt
      exact stage6_filled h6 i (by omega) hempty
    obtain ⟨n, f, hm⟩ := fillDefaults_missing sp np s i hge hreq hempty
    exact ⟨n, f, by rw [hfar, hm, exc_err_bind]⟩
  refine ⟨hmain, ?_⟩
  intro e hce hext hex
  obtain ⟨n, f, hm⟩ := hmain hex
  rw [hce] at hm
  cases hm
  rcases hext with ⟨cnt, f2, h⟩ | ⟨ns, f2, h⟩ <;> exact FunctionError.noConfusion h

/-- C1 witness: the spec `g(a, b)` called as `g(1)` leaves the required slot
`b` empty after `stage6` and binding fails with a missing-parameter error. -/
theorem collect_missing_before_extra_witness :
    ∃ n f,
      collect_slow (((ParametersSpec.new "g").required "a").required "b")
        ⟨[Val.int 1], [], [], none, none⟩ =
        .error (.MissingParameter n f) :=
  (collect_missing_before_extra (((ParametersSpec.new "g").required "a").required "b")
      ⟨[Val.int 1], [], [], none, none⟩
      [some (Val.int 1), none] [] 1 none rfl).1
    ⟨1, rfl, rfl⟩

/-- C2: after positional, named and `*args` processing, a positional fill
overrunning the lowest slot written by name is a repeated parameter, named
after that slot. -/
theorem collect_positional_named_collision (sp : ParametersSpec)
    (args : Arguments) (s : List (Option Val)) (star : List Val) (np : Nat)
    (buf : Option (SmallMap String Val)) (l : Nat)
    (h3 : stage3 sp args = .ok (s, star, np, buf, some l)) (hlt : l < np) :
    collect_slow sp args = .error (.RepeatedParameter (sp.param_name_at l)) := by
  unfold collect_slow stage6
  rw [h3]
  simp only [exc_ok_bind]
  have hcc : checkCollision sp np (some l) =
      Except.error (.RepeatedParameter (sp.param_name_at l)) := by
    simp only [checkCollision, if_pos hlt]
  simp only [hcc, exc_err_bind]

/-- C2 witness (spec scenario S3): `f(a, b=2, *args, **kwargs)` called as
`f(1, a=10)` — the positional `1` and the named `a=10` hit the same slot. -/
theorem collect_positional_named_collision_witness :
    collect_slow
      (((((ParametersSpec.new "f").required "a").defaulted "b"
          (Val.int 2)).addArgs).addKwargs)
      ⟨[Val.int 1], [Val.int 10], ["a"], none, none⟩ =
      .error (.RepeatedParameter "a") :=
  collect_positional_named_collision
    (((((ParametersSpec.new "f").required "a").defaulted "b"
        (Val.int 2)).addArgs).addKwargs)
    ⟨[Val.int 1], [Val.int 10], ["a"], none, none⟩
    [some (Val.int 10), none, none, none] [] 1 none 0 rfl (by omega)

theorem collectKwargsList_append_error (sp : ParametersSpec) :
    ∀ (pre : List (Val × Val)) (s : List (Option Val))
      (buf : Option (SmallMap String Val)) (s2 : List (Option Val))
      (buf2 : Option (SmallMap String Val)) (k v : Val)
      (rest : List (Val × Val)) (e : FunctionError),
      collectKwargsList sp pre s buf = .ok (s2, buf2) →
      collectKwargsEntry sp s2 buf2 k v = .error e →
      collectKwargsList sp (pre ++ (k, v) :: rest) s buf = .error e
  | [], s, buf, s2, buf2, k, v, rest, e, hok, herr => by
    rw [collectKwargsList] at hok
    cases hok
    rw [List.nil_append, collectKwargsList, herr, exc_err_bind]
  | (k0, v0) :: pre, s, buf, s2, buf2, k, v, rest, e, hok, herr => by
    rw [collectKwargsList] at hok
    cases hke : collectKwargsEntry sp s buf k0 v0 with
    | error e0 =>
      rw [hke, exc_err_bind] at hok
      exact Except.noConfusion hok
    | ok r =>
      rw [hke, exc_ok_bind] at hok
      rw [List.cons_append, collectKwargsList, hke, exc_ok_bind]
      exact collectKwargsList_append_error sp pre r.1 r.2 s2 buf2 k v rest e hok herr

/-- A key present in a well-formed kwargs buffer is found by
`get_index_of_hashed` under the canonical string hash. -/
theorem buffer_mem_isSome {mp : SmallMap String Val} (hwf : mp.WF strHash)
    {s : String} (hmem : s ∈ mp.keys) :
    (mp.get_index_of_hashed (strHash s) s).isSome = true := by
  obtain ⟨b, hb, hbk⟩ := List.mem_map.mp hmem
  obtain ⟨i, hi⟩ := List.getElem?_of_mem hb
  rw [hwf.lookup_agree s]
  exact vecGet_isSome hi (hbk ▸ hwf.hashConsistent b hb) hbk

/-- C3: `**kwargs` handling — a non-dict value fails with `KwArgsIsNotDict`;
a non-string key fails with `ArgsValueIsNotString`; a key matching a declared
parameter whose slot is already filled, or a key already present in the
kwargs buffer, fails with `RepeatedParameter`; and an entry error surfaces as
the result of `collect_slow` once the earlier entries processed cleanly. -/
theorem collect_kwargs_errors :
    (∀ (sp : ParametersSpec) (args : Arguments) (s : List (Option Val))
        (star : List Val) (np : Nat) (buf : Option (SmallMap String Val))
        (low : Option Nat) (v : Val),
      stage3 sp args = .ok (s, star, np, buf, low) →
      checkCollision sp np low = .ok () →
      args.kwargs = some v → v.asDict = none →
      collect_slow sp args = .error .KwArgsIsNotDict) ∧
    (∀ (sp : ParametersSpec) (slots : List (Option Val))
        (buf : Option (SmallMap String Val)) (k v : Val),
      k.asString = none →
      collectKwargsEntry sp slots buf k v = .error .ArgsValueIsNotString) ∧
    (∀ (sp : ParametersSpec) (slots : List (Option Val))
        (buf : Option (SmallMap String Val)) (s : String) (v : Val) (i : Nat),
      namesGet sp.names s = some i → ((slots[i]?).getD none).isSome = true →
      collectKwargsEntry sp slots buf (.str s) v = .error (.RepeatedParameter s)) ∧
    (∀ (sp : ParametersSpec) (slots : List (Option Val))
        (mp : SmallMap String Val) (s : String) (v : Val),
      namesGet sp.names s = none → mp.WF strHash → s ∈ mp.keys →
      collectKwargsEntry sp slots (some mp) (.str s) v =
        .error (.RepeatedParameter s)) ∧
    (∀ (sp : ParametersSpec) (args : Arguments) (s : List (Option Val))
        (star : List Val) (np : Nat) (buf : Option (SmallMap String Val))
        (low : Option Nat) (pre : List (Val × Val)) (k v : Val)
        (rest : List (Val × Val)) (s2 : List (Option Val))
        (buf2 : Option (SmallMap String Val)) (e : FunctionError),
      stage3 sp args = .ok (s, star, np, buf, low) →
      checkCollision sp np low = .ok () →
      args.kwargs = some (.dict (pre ++ (k, v) :: rest)) →
      collectKwargsList sp pre s buf = .ok (s2, buf2) →
      collectKwargsEntry sp s2 buf2 k v = .error e →
      collect_slow sp args = .error e) := by
  refine ⟨?_, ?_, ?_, ?_, ?_⟩
  · intro sp args s star np buf low v h3 hcc hkw hdict
    unfold collect_slow stage6
    rw [h3]
    simp only [exc_ok_bind, hcc, hkw]
    have hck : collectKwargs sp (some v) s buf = .error .KwArgsIsNotDict := by
      simp only [collectKwargs, hdict]
    simp only [hck, exc_err_bind]
  · intro sp slots buf k v hks
    simp only [collectKwargsEntry, hks]
  · intro sp slots buf s v i hn hrep
    simp only [collectKwargsEntry, Val.asString, hn, hrep, if_pos]
  · intro sp slots mp s v hn hwf hmem
    have hflag : (lazyInsert (some mp) s v).1 = true := by
      simp only [lazyInsert, SmallMap.insert_hashed]
      cases hg : mp.get_index_of_hashed (strHash s) s with
      | none =>
        exact absurd (buffer_mem_isSome hwf hmem) (by rw [hg]; simp)
      | some i =>
        obtain ⟨b, hib, _⟩ := get_index_of_some hg
        simp [hib]
    simp only [collectKwargsEntry, Val.asString, hn]
    rw [if_pos hflag]
  · intro sp args s star np buf low pre k v rest s2 buf2 e h3 hcc hkw hok herr
    unfold collect_slow stage6
    rw [h3]
    simp only [exc_ok_bind, hcc, hkw]
    have hck : collectKwargs sp (some (Val.dict (pre ++ (k, v) :: rest))) s buf =
        .error e := by
      simp only [collectKwargs, Val.asDict]
      exact collectKwargsList_append_error sp pre s buf s2 buf2 k v rest e hok herr
    simp only [hck, exc_err_bind]

/-- C3 witness: the four kwargs error modes and the end-to-end propagation,
each at a concrete input. -/
theorem collect_kwargs_errors_witness :
    collect_slow (ParametersSpec.new "f")
        ⟨[], [], [], none, some (Val.int 5)⟩ = .error .KwArgsIsNotDict ∧
    collectKwargsEntry (ParametersSpec.new "f") [] none (Val.int 3)
        (Val.int 4) = .error .ArgsValueIsNotString ∧
    collectKwargsEntry ((ParametersSpec.new "f").required "a")
        [some (Val.int 1)] none (Val.str "a") (Val.int 2) =
        .error (.RepeatedParameter "a") ∧
    collectKwargsEntry (ParametersSpec.new "f") []
        (some ⟨[⟨strHash "x", "x", Val.int 1⟩], none⟩) (Val.str "x")
        (Val.int 2) = .error (.RepeatedParameter "x") ∧
    collect_slow (ParametersSpec.new "f")
        ⟨[], [], [], none, some (Val.dict [(Val.int 3, Val.int 4)])⟩ =
        .error .ArgsValueIsNotString := by
  refine ⟨?_, ?_, ?_, ?_, ?_⟩
  · exact collect_kwargs_errors.1 (ParametersSpec.new "f")
      ⟨[], [], [], none, some (Val.int 5)⟩ [] [] 0 none none (Val.int 5)
      rfl rfl rfl rfl
  · exact collect_kwargs_errors.2.1 (ParametersSpec.new "f") [] none
      (Val.int 3) (Val.int 4) rfl
  · exact collect_kwargs_errors.2.2.1 ((ParametersSpec.new "f").required "a")
      [some (Val.int 1)] none "a" (Val.int 2) 0 rfl rfl
  · exact collect_kwargs_errors.2.2.2.1 (ParametersSpec.new "f") []
      ⟨[⟨strHash "x", "x", Val.int 1⟩], none⟩ "x" (Val.int 2) rfl
      ⟨by decide, by decide, fun idx h => Option.noConfusion h,
        fun _ => by decide⟩
      (by decide)
  · exact collect_kwargs_errors.2.2.2.2 (ParametersSpec.new "f")
      ⟨[], [], [], none, some (Val.dict [(Val.int 3, Val.int 4)])⟩
      [] [] 0 none none [] (Val.int 3) (Val.int 4) [] [] none
      .ArgsValueIsNotString rfl rfl rfl rfl rfl

/-- C10 (implicit): when two explicit named arguments carry the same name and
that name is not declared in the spec, no `RepeatedParameter` is raised — the
later value silently overwrites the earlier one in the resulting kwargs dict,
because the duplicate flag of the kwargs-buffer insert is ignored for explicit
named arguments (unlike for entries of the caller's `**kwargs`). -/
theorem collect_duplicate_named_kwargs_overwrite (n : String) (v1 v2 : Val) :
    collect ((ParametersSpec.new "f").addKwargs)
      ⟨[], [v1, v2], [n, n], none, none⟩ =
      .ok [some (Val.dict [(Val.str n, v2)])] := by
  have hfd : fillDefaultsFrom ((ParametersSpec.new "f").addKwargs) 0 [none] =
      .ok [none] := by
    rw [fillDefaultsFrom]
    rw [dif_pos (by decide : (0 : Nat) < ((ParametersSpec.new "f").addKwargs).kinds.length)]
    rw [show (([none] : List (Option Val))[0]?).getD none = none from rfl]
    rw [show ((ParametersSpec.new "f").addKwargs).kinds[0]? = some .kwargs from rfl]
    rw [fillDefaultsFrom]
    rw [dif_neg (by decide : ¬((1 : Nat) < ((ParametersSpec.new "f").addKwargs).kinds.length))]
  simp only [collect, collect_slow, stage6, stage3, namedPass, collectPositional,
    zipWrite, collectNamed, namesGet, lazyInsert, SmallMap.with_capacity_largest_vec,
    SmallMap.with_capacity, SmallMap.insert_hashed, SmallMap.get_index_of_hashed,
    vecGetIndexOfHashed, SmallMap.insert_unique_unchecked, setValue,
    collectStarArgs, checkCollision, collectKwargs, finalize, lazyAlloc,
    NO_INDEX_THRESHOLD, exc_ok_bind, exc_err_bind, exc_map_ok, exc_pure,
    List.replicate, List.zip, List.zipWith, List.find?, List.length_nil,
    List.length_cons, hfd]
  simp only [ParametersSpec.addKwargs, ParametersSpec.new, List.nil_append,
    List.length_nil] at hfd ⊢
  simp [hfd, exc_ok_bind, exc_pure, setValue]

/-! ### `Arguments::names_map` (src/starlark/src/eval/runtime/arguments.rs) -/

/-- `Arguments::unpack_kwargs`. -/
def unpack_kwargs (args : Arguments) :
    Except FunctionError (Option (List (Val × Val))) :=
  match args.kwargs with
  | none => .ok none
  | some v =>
    match v.asDict with
    | none => .error .KwArgsIsNotDict
    | some xs => .ok (some xs)

/-- The first loop of `names_map`: insert the explicit named arguments into
the result map, ignoring the previous-value result of `insert_hashed`. -/
def insertNamed (m : SmallMap String Val) :
    List (String × Val) → SmallMap String Val
  | [] => m
  | (n, v) :: rest => insertNamed ((m.insert_hashed (strHash n) n v).2) rest

/-- Modelled from the spec: `Dict::downcast_ref_key_string` — view the dict as
string-keyed when every key is a string, else fail (`values/dict.rs` is not
among the sources; the clone of the underlying map is modelled by re-inserting
the entries in order). -/
def toStringKeyed (m : SmallMap String Val) :
    List (Val × Val) → Option (SmallMap String Val)
  | [] => some m
  | (k, v) :: rest =>
    match k.asString with
    | some s => toStringKeyed ((m.insert_hashed (strHash s) s v).2) rest
    | none => none

/-- The kwargs loop of `names_map`: a non-string key fails with
`ArgsValueIsNotString`; a key whose insertion returns a previous value fails
with `RepeatedParameter`. -/
def namesMapFold (m : SmallMap String Val) :
    List (Val × Val) → Except FunctionError (SmallMap String Val)
  | [] => .ok m
  | (k, v) :: rest =>
    match k.asString with
    | none => .error .ArgsValueIsNotString
    | some s =>
      if ((m.insert_hashed (strHash s) s v).1).isSome then
        .error (.RepeatedParameter s)
      else namesMapFold ((m.insert_hashed (strHash s) s v).2) rest

/-- `Arguments::names_map`: collapse explicit named arguments plus the
`**kwargs` dict into a single string-keyed map. -/
def names_map (args : Arguments) :
    Except FunctionError (SmallMap String Val) :=
  match unpack_kwargs args with
  | .error e => .error e
  | .ok none =>
    .ok (insertNamed (SmallMap.with_capacity args.names.length)
      (args.names.zip args.named))
  | .ok (some kw) =>
    if args.names.isEmpty then
      match toStringKeyed SmallMap.new kw with
      | some mp => .ok mp
      | none => .error .ArgsValueIsNotString
    else
      namesMapFold
        (insertNamed (SmallMap.with_capacity (args.names.length + kw.length))
          (args.names.zip args.named)) kw

/-- C8: `names_map` is documented to fail when named argument names are not
unique, but two explicit named arguments with the same name produce no
`RepeatedParameter`: the call succeeds and the later value overwrites the
earlier one. -/
theorem names_map_duplicate_named_no_error :
    names_map ⟨[], [Val.int 1, Val.int 2], ["x", "x"], none, none⟩ =
      .ok ⟨[⟨strHash "x", "x", Val.int 2⟩], none⟩ := rfl

end Starlark
